import Mathlib

/-!
# Verification of wadl-dumper's path rendering engine

Shallow embedding of `main.go` of the wadl-dumper repository.  Go strings
are modelled as `List Char` (`Str`); the string helpers from the Go
standard library that the program uses (`strings.Index`,
`strings.SplitN(·, "=", 2)`, `strings.Contains`) are embedded directly.
The XML collaborator is abstracted as a record (`WadlDoc`) holding the
three query results the program reads: the `application/@xmlns` attribute,
the `resources/@base` attribute, and the list of `resource/@path`
attribute values in document order.
-/

/-- Go strings, modelled as lists of characters. -/
abbrev Str := List Char

/-- Convenience coercion from Lean string literals to `Str`. -/
def str (s : String) : Str := s.data

/-- `strings.Index hay pat`: index of the first occurrence of `pat` in
`hay`, `-1` when there is none (0 when `pat` is empty). -/
def strIndex : Str → Str → Int
  | hay, pat =>
    if pat.isPrefixOf hay then 0
    else
      match hay with
      | [] => -1
      | _ :: rest =>
        let r := strIndex rest pat
        if r < 0 then -1 else r + 1

/-- `strings.Contains hay pat` (used for the WADL namespace marker test). -/
def containsStr (hay pat : Str) : Bool := 0 ≤ strIndex hay pat

/-- `strings.SplitN p "=" 2`, presented as the part before the first `=`
together with (optionally) the part after it.  `(s, none)` corresponds to
the one-element result `[s]` (no `=` in `p`); `(a, some b)` to `[a, b]`. -/
def splitN2 : Str → Str × Option Str
  | [] => ([], none)
  | c :: rest =>
    if c = '=' then ([], some rest)
    else
      let p := splitN2 rest
      (c :: p.1, p.2)

/-- `parsePlaceholders` (main.go 72-80): fold the raw `-p` arguments into
the placeholder map.  Arguments without `=` are skipped; a later argument
for the same name overwrites an earlier one, exactly as the Go map
assignment `opt.placeholders[name] = value` does. -/
def parsePlaceholders (args : List Str) : Str → Option Str :=
  args.foldl
    (fun m p =>
      match splitN2 p with
      | (name, some value) => fun n => if n = name then some value else m n
      | (_, none) => m)
    (fun _ => none)

/-- The run configuration (the relevant fields of the Go `options`
struct, after flag parsing): `showBase` (`-b`), `replace` (`-r`), and the
placeholder map produced by `parsePlaceholders`. -/
structure Config where
  showBase : Bool
  replace : Str
  placeholders : Str → Option Str

/-- Loop body of `replaceNth` (main.go 88-104).  `i` is the Go cursor
into `s`; the second argument counts the remaining loop iterations
(`rem + 1` iterations left means the current one is the last when
`rem = 0`, matching Go's `if m == n`). -/
def replaceNthAux (s old new : Str) : Nat → Nat → Str
  | _, 0 => s
  | i, rem + 1 =>
    let x := strIndex (s.drop i) old
    if x < 0 then s
    else
      let j := i + x.toNat
      if rem = 0 then s.take j ++ new ++ s.drop (j + old.length)
      else replaceNthAux s old new (j + old.length) rem

/-- `replaceNth s old new n` (main.go 88-104): replace the `n`-th
sequential occurrence of `old` in `s` by `new`; return `s` unchanged when
`n ≤ 0` or fewer than `n` occurrences exist. -/
def replaceNth (s old new : Str) (n : Int) : Str :=
  replaceNthAux s old new 0 n.toNat

/-- The replacement callback of `replacePlaceholders` (main.go 113-129),
applied to the name between the braces of one matched token: an explicit
placeholder value wins; otherwise a non-empty `-r` value; otherwise the
original token (braces reconstructed) is kept. -/
def resolveToken (ph : Str → Option Str) (repl name : Str) : Str :=
  match ph name with
  | some v => v
  | none => if repl = [] then '{' :: (name ++ ['}']) else repl

/-- Left-to-right scanner realising Go's
`regexp.MustCompile("\\x7b([^\x7b\x7d]+)\\x7d").ReplaceAllStringFunc`:
the state `none` is "outside a candidate token"; `some acc` means an
opening brace has been read and `acc` holds the (brace-free) name
characters read so far.  A candidate closed by `}` with a non-empty name
is a match and is replaced; a candidate aborted by `{`, by an empty name,
or by the end of the input is emitted literally, and scanning resumes
exactly where the regular-expression engine would resume (at the
aborting `{`, after the `}`, or at the end). -/
def renderAux (ph : Str → Option Str) (repl : Str) : Option Str → Str → Str
  | none, [] => []
  | none, c :: rest =>
    if c = '{' then renderAux ph repl (some []) rest
    else c :: renderAux ph repl none rest
  | some acc, [] => '{' :: acc
  | some acc, c :: rest =>
    if c = '}' then
      if acc = [] then '{' :: '}' :: renderAux ph repl none rest
      else resolveToken ph repl acc ++ renderAux ph repl none rest
    else if c = '{' then '{' :: (acc ++ renderAux ph repl (some []) rest)
    else renderAux ph repl (some (acc ++ [c])) rest

/-- `replacePlaceholders` (main.go 108-132): replace every non-overlapping
match of the token pattern, left to right, the replacement text never
rescanned. -/
def replacePlaceholders (ph : Str → Option Str) (repl : Str) (s : Str) : Str :=
  renderAux ph repl none s

/-- Matcher for the tail of the token pattern: given the text after an
opening brace, `takeNameRest` consumes name characters (neither `{` nor
`}`) up to a closing `}` and returns the name and the rest of the input;
`none` when the pattern cannot match there. -/
def takeNameRest : Str → Option (Str × Str)
  | [] => none
  | c :: rest =>
    if c = '}' then some ([], rest)
    else if c = '{' then none
    else
      match takeNameRest rest with
      | some (nm, after) => some (c :: nm, after)
      | none => none

/-- Matcher for the token pattern minus its opening brace: at least one
name character is required before the closing `}`. -/
def takeName : Str → Option (Str × Str)
  | [] => none
  | c :: rest =>
    if c = '}' then none
    else if c = '{' then none
    else
      match takeNameRest rest with
      | some (nm, after) => some (c :: nm, after)
      | none => none

/-- Whether the token pattern matches anywhere in `s`. -/
def containsToken : Str → Bool
  | [] => false
  | c :: rest => (decide (c = '{') && (takeName rest).isSome) || containsToken rest

/-- Modelled from the spec: the sequential occurrence positions of `//`
in a string — "scan the composed string left to right counting
occurrences of the two-character substring `//` … after finding
occurrence k, the scan for occurrence k+1 resumes immediately after the
matched substring". -/
def slashOccs : Str → List Nat
  | '/' :: '/' :: rest2 => 0 :: (slashOccs rest2).map (· + 2)
  | _ :: rest => (slashOccs rest).map (· + 1)
  | [] => []

/-- Modelled from the spec: the second-occurrence collapse rule — "if a
second occurrence exists, replace that specific occurrence with a single
`/` … if fewer than two occurrences exist, the string is unchanged". -/
def collapseSecondSpec (s : Str) : Str :=
  match slashOccs s with
  | _ :: i :: _ => s.take i ++ '/' :: s.drop (i + 2)
  | _ => s

/-- Per-path loop body of `main` (main.go 172-182): concatenate the
effective base URL and the declared path, substitute placeholders, then —
only when the base URL is non-empty — collapse the second `//`. -/
def renderLine (cfg : Config) (baseURL p : Str) : Str :=
  let path0 := baseURL ++ p
  let path1 := replacePlaceholders cfg.placeholders cfg.replace path0
  if baseURL ≠ [] then replaceNth path1 (str "//") (str "/") 2 else path1

/-- Modelled from the spec: the claimed pipeline order "Path Composer
then Template Renderer" — collapse the second `//` of the raw
concatenation first, substitute placeholders afterwards. -/
def renderLineSpecOrder (cfg : Config) (baseURL p : Str) : Str :=
  let composed := baseURL ++ p
  let composed1 :=
    if baseURL ≠ [] then replaceNth composed (str "//") (str "/") 2 else composed
  replacePlaceholders cfg.placeholders cfg.replace composed1

/-- The three query results `main` reads from the XML collaborator:
`FindOne(wadl, "//application/@xmlns")`, `FindOne(wadl,
"//resources/@base")`, and `Find(wadl, "//resource/@path")` (inner texts,
in document order). -/
structure WadlDoc where
  xmlns : Option Str
  base : Option Str
  resourcePaths : List Str
deriving DecidableEq

/-- Observable outcome of a run: the lines printed to standard output,
the single `Error! …` line printed to the error stream (if any), and the
process exit status. -/
structure RunResult where
  stdoutLines : List Str
  errLine : Option Str
  exitCode : Nat
deriving DecidableEq

/-- `errorExit` (main.go 82-86): print one `Error! <message>` line to the
error stream and exit with status 1, having produced no output lines. -/
def errorExit (message : Str) : RunResult :=
  ⟨[], some (str "Error! " ++ message), 1⟩

/-- The WADL namespace marker tested at main.go 161. -/
def wadlMarker : Str := str "wadl.dev.java.net"

/-- `main` after a successful parse (main.go 160-183): validate the WADL
namespace marker, compute the effective base URL (declared base if
present and `-b` was given, else empty), then render and emit one line
per declared resource path, in order. -/
def runMain (doc : WadlDoc) (cfg : Config) : RunResult :=
  match doc.xmlns with
  | none => errorExit (str "Not a WADL file.")
  | some t =>
    if containsStr t wadlMarker then
      let baseURL :=
        match doc.base with
        | some b => if cfg.showBase then b else []
        | none => []
      ⟨doc.resourcePaths.map (renderLine cfg baseURL), none, 0⟩
    else errorExit (str "Not a WADL file.")

example : str "ab" = ['a', 'b'] := by decide

example : replaceNth (str "a//b//c//d") (str "//") (str "/") 2 = str "a//b/c//d" := by decide

example : replacePlaceholders (parsePlaceholders [str "id=42"]) (str "X")
    (str "/u/{id}/o/{oid}") = str "/u/42/o/X" := by decide

example : replacePlaceholders (fun _ => none) [] (str "/a/\x7bx\x7by\x7d/z") =
    str "/a/\x7bx\x7by\x7d/z" := by
  decide

example : renderLine ⟨true, [], fun _ => none⟩ (str "http://h.tld/") (str "/res/{id}") =
    str "http://h.tld/res/{id}" := by decide

example : slashOccs (str "a//b///c") = [1, 4] := by decide

/-! ## Lemmas about the template renderer -/

theorem takeNameRest_append (as rest : Str) (h1 : '{' ∉ as) (h2 : '}' ∉ as) :
    takeNameRest (as ++ '}' :: rest) = some (as, rest) := by
  induction as with
  | nil => simp [takeNameRest]
  | cons c cs ih =>
    simp only [List.mem_cons, not_or] at h1 h2
    have hc1 : c ≠ '{' := fun e => h1.1 e.symm
    have hc2 : c ≠ '}' := fun e => h2.1 e.symm
    simp [takeNameRest, hc1, hc2, ih h1.2 h2.2]

theorem renderAux_copy (ph : Str → Option Str) (repl : Str) (pre t : Str)
    (h : '{' ∉ pre) :
    renderAux ph repl none (pre ++ t) = pre ++ renderAux ph repl none t := by
  induction pre with
  | nil => simp
  | cons c cs ih =>
    simp only [List.mem_cons, not_or] at h
    have hc : c ≠ '{' := fun e => h.1 e.symm
    simp [renderAux, hc, ih h.2]

theorem renderAux_token_acc (ph : Str → Option Str) (repl : Str) (nm : Str)
    (h1 : '{' ∉ nm) (h2 : '}' ∉ nm) :
    ∀ acc post, acc ++ nm ≠ [] →
      renderAux ph repl (some acc) (nm ++ '}' :: post) =
        resolveToken ph repl (acc ++ nm) ++ renderAux ph repl none post := by
  induction nm with
  | nil =>
    intro acc post hne
    simp only [List.append_nil] at hne ⊢
    simp [renderAux, hne]
  | cons c cs ih =>
    intro acc post _
    simp only [List.mem_cons, not_or] at h1 h2
    have hc1 : c ≠ '{' := fun e => h1.1 e.symm
    have hc2 : c ≠ '}' := fun e => h2.1 e.symm
    have step := ih h1.2 h2.2 (acc ++ [c]) post (by simp)
    simp only [List.append_assoc, List.singleton_append] at step
    simp [renderAux, hc1, hc2, step]

theorem renderAux_token (ph : Str → Option Str) (repl : Str) (nm post : Str)
    (h0 : nm ≠ []) (h1 : '{' ∉ nm) (h2 : '}' ∉ nm) :
    renderAux ph repl none ('{' :: (nm ++ '}' :: post)) =
      resolveToken ph repl nm ++ renderAux ph repl none post := by
  have step := renderAux_token_acc ph repl nm h1 h2 [] post (by simpa using h0)
  simpa [renderAux] using step

theorem renderAux_nomatch (ph : Str → Option Str) (repl : Str) :
    ∀ s : Str,
      (containsToken s = false → renderAux ph repl none s = s) ∧
      (∀ acc, '{' ∉ acc → '}' ∉ acc → takeName (acc ++ s) = none →
        containsToken s = false → renderAux ph repl (some acc) s = '{' :: (acc ++ s)) := by
  intro s
  induction s with
  | nil =>
    refine ⟨fun _ => rfl, fun acc _ _ _ _ => ?_⟩
    simp [renderAux]
  | cons c rest ih =>
    have hct : ∀ h : containsToken (c :: rest) = false,
        (c = '{' → takeName rest = none) ∧ containsToken rest = false := by
      intro h
      simp only [containsToken, Bool.or_eq_false_iff, Bool.and_eq_false_iff] at h
      refine ⟨fun hc => ?_, h.2⟩
      rcases h.1 with h' | h'
      · exact absurd hc (by simpa using h')
      · exact Option.not_isSome_iff_eq_none.mp (by simp [h'])
    constructor
    · intro h
      by_cases hc : c = '{'
      · have h' := hct h
        have := ih.2 [] (by simp) (by simp) (by simpa using h'.1 hc) h'.2
        simp only [List.nil_append] at this
        simp [renderAux, hc, this]
      · simp [renderAux, hc, ih.1 (hct h).2]
    · intro acc hacc1 hacc2 htn h
      by_cases hc2 : c = '}'
      · subst hc2
        match acc, hacc1, hacc2 with
        | [], _, _ =>
          simp only [List.nil_append] at htn ⊢
          simp [renderAux, ih.1 (hct h).2]
        | a :: as, hacc1, hacc2 =>
          exfalso
          simp only [List.mem_cons, not_or] at hacc1 hacc2
          have ha1 : a ≠ '{' := fun e => hacc1.1 e.symm
          have ha2 : a ≠ '}' := fun e => hacc2.1 e.symm
          rw [List.cons_append] at htn
          simp [takeName, ha1, ha2,
            takeNameRest_append as rest hacc1.2 hacc2.2] at htn
      · by_cases hc1 : c = '{'
        · subst hc1
          have h' := hct h
          have := ih.2 [] (by simp) (by simp) (by simpa using h'.1 rfl) h'.2
          simp only [List.nil_append] at this
          simp [renderAux, this]
        · have h' := hct h
          have step := ih.2 (acc ++ [c])
            (by simp only [List.mem_append, List.mem_singleton, not_or]
                exact ⟨hacc1, fun e => hc1 e.symm⟩)
            (by simp only [List.mem_append, List.mem_singleton, not_or]
                exact ⟨hacc2, fun e => hc2 e.symm⟩)
            (by simpa [List.append_assoc] using htn) h'.2
          simp only [List.append_assoc, List.singleton_append] at step
          simp [renderAux, hc1, hc2, step]

theorem render_nomatch (ph : Str → Option Str) (repl s : Str)
    (h : containsToken s = false) : replacePlaceholders ph repl s = s :=
  (renderAux_nomatch ph repl s).1 h

theorem renderAux_agree (ph ph' : Str → Option Str) (repl : Str)
    (hag : ∀ nm, nm ≠ [] → ph nm = ph' nm) :
    ∀ (s : Str) (st : Option Str),
      renderAux ph repl st s = renderAux ph' repl st s := by
  intro s
  induction s with
  | nil => intro st; cases st <;> rfl
  | cons c rest ih =>
    intro st
    cases st with
    | none => by_cases hc : c = '{' <;> simp [renderAux, hc, ih]
    | some acc =>
      by_cases hc2 : c = '}'
      · by_cases hacc : acc = []
        · simp [renderAux, hc2, hacc, ih]
        · have hres : resolveToken ph repl acc = resolveToken ph' repl acc := by
            unfold resolveToken
            rw [hag acc hacc]
          simp [renderAux, hc2, hacc, hres, ih]
      · by_cases hc1 : c = '{' <;> simp [renderAux, hc2, hc1, ih]

/-! ## Lemmas about `strIndex`, `slashOccs` and `replaceNth` -/

theorem strIndex_of_isPrefixOf (hay pat : Str) (h : pat.isPrefixOf hay = true) :
    strIndex hay pat = 0 := by
  rw [strIndex.eq_def]
  simp [h]

theorem strIndex_cons_neg (c : Char) (rest pat : Str)
    (h : pat.isPrefixOf (c :: rest) = false) :
    strIndex (c :: rest) pat =
      if strIndex rest pat < 0 then -1 else strIndex rest pat + 1 := by
  conv_lhs => rw [strIndex.eq_def]
  simp [h]

theorem slashOccs_cons_ne (c : Char) (rest : Str)
    (h : (['/', '/'] : Str).isPrefixOf (c :: rest) = false) :
    slashOccs (c :: rest) = (slashOccs rest).map (· + 1) := by
  rw [slashOccs.eq_def]
  split
  · next rest2 heq =>
    exfalso
    rw [heq] at h
    simp [List.isPrefixOf, List.isPrefixOf_cons₂] at h
  · next x head tail hne heq =>
    cases heq
    rfl
  · next heq => cases heq

theorem slashOccs_strIndex (s : Str) :
    (slashOccs s = [] → strIndex s ['/', '/'] = -1) ∧
    (∀ i t, slashOccs s = i :: t →
      strIndex s ['/', '/'] = (i : Int) ∧ i + 2 ≤ s.length ∧
        t = (slashOccs (s.drop (i + 2))).map (· + (i + 2))) := by
  induction s with
  | nil =>
    refine ⟨fun _ => by decide, fun i t h => ?_⟩
    simp [slashOccs] at h
  | cons c rest ih =>
    cases hp : (['/', '/'] : Str).isPrefixOf (c :: rest) with
    | true =>
      obtain ⟨t0, ht0⟩ := List.isPrefixOf_iff_prefix.mp hp
      have ht0' : '/' :: '/' :: t0 = c :: rest := ht0
      injection ht0' with h1 h2
      subst h1
      subst h2
      have e1 : slashOccs ('/' :: '/' :: t0) = 0 :: (slashOccs t0).map (· + 2) := rfl
      constructor
      · intro h
        rw [e1] at h
        cases h
      intro i t h
      rw [e1] at h
      injection h with hi ht
      subst hi; subst ht
      refine ⟨strIndex_of_isPrefixOf _ _ hp, by simp, by simp⟩

    | false =>
      have hocc := slashOccs_cons_ne c rest hp
      constructor
      · intro h
        rw [hocc, List.map_eq_nil_iff] at h
        rw [strIndex_cons_neg c rest _ hp, ih.1 h]
        norm_num
      · intro i t h
        rw [hocc] at h
        cases hr : slashOccs rest with
        | nil => rw [hr] at h; simp at h
        | cons j t' =>
          rw [hr, List.map_cons] at h
          injection h with hi ht
          obtain ⟨hsi, hlen, htail⟩ := ih.2 j t' hr
          subst hi; subst ht
          refine ⟨?_, ?_, ?_⟩
          · rw [strIndex_cons_neg c rest _ hp, hsi,
              if_neg (by omega : ¬ ((j : Int) < 0))]
            omega
          · simp only [List.length_cons]
            omega
          · have hdrop : (c :: rest).drop (j + 1 + 2) = rest.drop (j + 2) := by
              show (c :: rest).drop (j + 2 + 1) = rest.drop (j + 2)
              rw [List.drop_succ_cons]
            rw [hdrop, htail, List.map_map]
            congr 1

theorem replaceNthAux_succ (s old new : Str) (i rem : Nat) :
    replaceNthAux s old new i (rem + 1) =
      if strIndex (s.drop i) old < 0 then s
      else if rem = 0 then
        s.take (i + (strIndex (s.drop i) old).toNat) ++ new ++
          s.drop (i + (strIndex (s.drop i) old).toNat + old.length)
      else replaceNthAux s old new
        (i + (strIndex (s.drop i) old).toNat + old.length) rem := by
  rw [replaceNthAux]

theorem replaceNth_two_collapse (s : Str) :
    replaceNth s (str "//") (str "/") 2 = collapseSecondSpec s := by
  show replaceNthAux s ['/', '/'] ['/'] 0 2 = collapseSecondSpec s
  rcases hocc : slashOccs s with _ | ⟨i, _ | ⟨j, t⟩⟩
  · have hx := (slashOccs_strIndex s).1 hocc
    have hcs : collapseSecondSpec s = s := by
      unfold collapseSecondSpec
      rw [hocc]
    rw [hcs, replaceNthAux_succ, List.drop_zero, hx]
    norm_num
  · obtain ⟨hsi, hlen, htail⟩ := (slashOccs_strIndex s).2 i [] hocc
    have h2 : slashOccs (s.drop (i + 2)) = [] := by
      rcases hh : slashOccs (s.drop (i + 2)) with _ | ⟨a, b⟩
      · rfl
      · rw [hh, List.map_cons] at htail; cases htail
    have hx2 := (slashOccs_strIndex (s.drop (i + 2))).1 h2
    have hcs : collapseSecondSpec s = s := by
      unfold collapseSecondSpec
      rw [hocc]
    rw [hcs, replaceNthAux_succ, List.drop_zero, hsi,
      if_neg (by omega : ¬ ((i : Int) < 0)), if_neg (by omega : ¬ (1 = 0))]
    simp only [Int.toNat_ofNat, Nat.zero_add, List.length_cons, List.length_nil]
    rw [replaceNthAux_succ]
    norm_num [hx2]
  · obtain ⟨hsi, hlen, htail⟩ := (slashOccs_strIndex s).2 i (j :: t) hocc
    rcases hh : slashOccs (s.drop (i + 2)) with _ | ⟨j', t'⟩
    · rw [hh] at htail; cases htail
    rw [hh, List.map_cons] at htail
    injection htail with hj ht'
    obtain ⟨hsi2, hlen2, _⟩ := (slashOccs_strIndex (s.drop (i + 2))).2 j' t' hh
    have hcs : collapseSecondSpec s = s.take j ++ '/' :: s.drop (j + 2) := by
      unfold collapseSecondSpec
      rw [hocc]
    rw [hcs, replaceNthAux_succ, List.drop_zero, hsi,
      if_neg (by omega : ¬ ((i : Int) < 0)), if_neg (by omega : ¬ (1 = 0))]
    simp only [Int.toNat_ofNat, Nat.zero_add, List.length_cons, List.length_nil]
    rw [replaceNthAux_succ, hsi2,
      if_neg (by omega : ¬ ((j' : Int) < 0)), if_pos rfl]
    simp only [Int.toNat_ofNat]
    subst hj
    have harith : i + (1 + 1) + j' = j' + (i + 2) := by omega
    rw [harith]
    simp [List.singleton_append]

theorem strIndex_nonneg_spec (hay pat : Str) (h : 0 ≤ strIndex hay pat) :
    pat.isPrefixOf (hay.drop (strIndex hay pat).toNat) = true ∧
    (strIndex hay pat).toNat + pat.length ≤ hay.length := by
  induction hay with
  | nil =>
    cases pat with
    | nil => exact ⟨by decide, by decide⟩
    | cons p ps =>
      rw [strIndex.eq_def] at h
      simp at h
  | cons c rest ih =>
    cases hpp : pat.isPrefixOf (c :: rest) with
    | true =>
      rw [strIndex_of_isPrefixOf _ _ hpp]
      exact ⟨by simpa using hpp,
        by simpa using (List.isPrefixOf_iff_prefix.mp hpp).length_le⟩
    | false =>
      rw [strIndex_cons_neg c rest pat hpp] at h ⊢
      by_cases hlt : strIndex rest pat < 0
      · rw [if_pos hlt] at h
        norm_num at h
      · rw [if_neg hlt] at h ⊢
        have h' : 0 ≤ strIndex rest pat := not_lt.mp hlt
        obtain ⟨ih1, ih2⟩ := ih h'
        have htn : (strIndex rest pat + 1).toNat = (strIndex rest pat).toNat + 1 := by
          omega
        rw [htn]
        refine ⟨by simpa [List.drop_succ_cons] using ih1, ?_⟩
        simp only [List.length_cons]
        omega

theorem replaceNthAux_spec (s old new : Str) :
    ∀ (rem i : Nat), i ≤ s.length →
      replaceNthAux s old new i rem = s ∨
        ∃ j, j + old.length ≤ s.length ∧ old.isPrefixOf (s.drop j) = true ∧
          replaceNthAux s old new i rem = s.take j ++ new ++ s.drop (j + old.length) := by
  intro rem
  induction rem with
  | zero => intro i _; left; rfl
  | succ rem ih =>
    intro i hi
    rw [replaceNthAux_succ]
    by_cases hx : strIndex (s.drop i) old < 0
    · left
      rw [if_pos hx]
    · rw [if_neg hx]
      have hx' : 0 ≤ strIndex (s.drop i) old := not_lt.mp hx
      obtain ⟨hpf, hlen⟩ := strIndex_nonneg_spec (s.drop i) old hx'
      rw [List.drop_drop] at hpf
      rw [List.length_drop] at hlen
      by_cases hrem : rem = 0
      · rw [if_pos hrem]
        right
        exact ⟨i + (strIndex (s.drop i) old).toNat, by omega, hpf, rfl⟩
      · rw [if_neg hrem]
        exact ih (i + (strIndex (s.drop i) old).toNat + old.length) (by omega)

/-! ## Lemmas about placeholder argument parsing -/

theorem splitN2_no_eq (a : Str) (h : '=' ∉ a) : splitN2 a = (a, none) := by
  induction a with
  | nil => rfl
  | cons c cs ih =>
    simp only [List.mem_cons, not_or] at h
    have hc : c ≠ '=' := fun e => h.1 e.symm
    simp [splitN2, hc, ih h.2]

theorem splitN2_first_eq (name value : Str) (h : '=' ∉ name) :
    splitN2 (name ++ '=' :: value) = (name, some value) := by
  induction name with
  | nil => simp [splitN2]
  | cons c cs ih =>
    simp only [List.mem_cons, not_or] at h
    have hc : c ≠ '=' := fun e => h.1 e.symm
    simp [splitN2, hc, ih h.2]

theorem parsePlaceholders_append (args : List Str) (a : Str) :
    parsePlaceholders (args ++ [a]) =
      match splitN2 a with
      | (name, some value) =>
        fun n => if n = name then some value else parsePlaceholders args n
      | (_, none) => parsePlaceholders args := by
  unfold parsePlaceholders
  rw [List.foldl_append]
  rfl

/-! ## Claim theorems -/

/-- C2: for every non-empty base URL and every relative path, applying the
program's collapse step (`replaceNth · "//" "/" 2`) to the literal
concatenation `base ++ p` replaces exactly the second sequential
occurrence of `//` (occurrences counted left to right, the scan resuming
immediately after each matched substring), and leaves the string
unchanged when fewer than two occurrences exist. -/
theorem claim_C2 (base p : Str) (_hb : base ≠ []) :
    replaceNth (base ++ p) (str "//") (str "/") 2 = collapseSecondSpec (base ++ p) ∧
    ((slashOccs (base ++ p)).length ≤ 1 →
      replaceNth (base ++ p) (str "//") (str "/") 2 = base ++ p) := by
  refine ⟨replaceNth_two_collapse _, fun hlen => ?_⟩
  rw [replaceNth_two_collapse]
  unfold collapseSecondSpec
  rcases h : slashOccs (base ++ p) with _ | ⟨i, _ | ⟨j, t⟩⟩
  · rfl
  · rfl
  · rw [h] at hlen
    simp only [List.length_cons] at hlen
    omega

/-- Witness for C2 at a concrete input. -/
theorem claim_C2_witness :
    replaceNth (str "http://h.tld" ++ str "//a") (str "//") (str "/") 2 =
      collapseSecondSpec (str "http://h.tld" ++ str "//a") :=
  (claim_C2 (str "http://h.tld") (str "//a") (by decide)).1

/-- C8: `replaceNth` is total and never cuts outside the string: for all
arguments (any occurrence index `n : Int`, including non-positive ones,
and any haystack and needle) the result is either exactly `s`, or `s`
with one genuine in-bounds occurrence of `old` spliced out for `new`. -/
theorem claim_C8 (s old new : Str) (n : Int) :
    (n ≤ 0 → replaceNth s old new n = s) ∧
    (replaceNth s old new n = s ∨
      ∃ j, j + old.length ≤ s.length ∧ old.isPrefixOf (s.drop j) = true ∧
        replaceNth s old new n = s.take j ++ new ++ s.drop (j + old.length)) := by
  constructor
  · intro hn
    unfold replaceNth
    rw [Int.toNat_of_nonpos hn]
    rfl
  · exact replaceNthAux_spec s old new n.toNat 0 (Nat.zero_le _)

/-- Witness for C8 at a negative occurrence index. -/
theorem claim_C8_witness :
    replaceNth (str "a//b") (str "//") (str "/") (-3) = str "a//b" :=
  (claim_C8 (str "a//b") (str "//") (str "/") (-3)).1 (by decide)

/-- C3: the value substituted for one placeholder token follows the
resolution precedence: an explicit mapping wins (for any default), else a
non-empty default replacement, else the token is kept verbatim with its
braces. -/
theorem claim_C3 (ph : Str → Option Str) (repl nm v : Str)
    (h0 : nm ≠ []) (h1 : '{' ∉ nm) (h2 : '}' ∉ nm) :
    (ph nm = some v →
      replacePlaceholders ph repl ('{' :: (nm ++ ['}'])) = v) ∧
    (ph nm = none → repl ≠ [] →
      replacePlaceholders ph repl ('{' :: (nm ++ ['}'])) = repl) ∧
    (ph nm = none → repl = [] →
      replacePlaceholders ph repl ('{' :: (nm ++ ['}'])) = '{' :: (nm ++ ['}'])) := by
  have key : replacePlaceholders ph repl ('{' :: (nm ++ ['}'])) =
      resolveToken ph repl nm := by
    have h := renderAux_token ph repl nm [] h0 h1 h2
    simpa [replacePlaceholders, renderAux] using h
  refine ⟨fun hv => ?_, fun hn hr => ?_, fun hn hr => ?_⟩
  · rw [key]
    unfold resolveToken
    rw [hv]
  · rw [key]
    unfold resolveToken
    rw [hn]
    simp [hr]
  · rw [key]
    unfold resolveToken
    rw [hn]
    simp [hr]

/-- Witness for C3: an explicit mapping wins over a non-empty default. -/
theorem claim_C3_witness :
    replacePlaceholders (parsePlaceholders [str "id=42"]) (str "XX")
      ('{' :: (str "id" ++ ['}'])) = str "42" :=
  (claim_C3 (parsePlaceholders [str "id=42"]) (str "XX") (str "id") (str "42")
    (by decide) (by decide) (by decide)).1 (by decide)

/-- C4: the renderer replaces exactly the non-overlapping matches of the
token pattern, left to right against the original string (the first match
after a brace-free prefix is substituted and scanning continues on the
original remainder, so a replacement value is never rescanned), and an
input with no match is returned unchanged. -/
theorem claim_C4 (ph : Str → Option Str) (repl pre nm post s : Str)
    (hpre : '{' ∉ pre) (h0 : nm ≠ []) (h1 : '{' ∉ nm) (h2 : '}' ∉ nm) :
    replacePlaceholders ph repl (pre ++ '{' :: (nm ++ '}' :: post)) =
      pre ++ resolveToken ph repl nm ++ replacePlaceholders ph repl post ∧
    (containsToken s = false → replacePlaceholders ph repl s = s) := by
  constructor
  · unfold replacePlaceholders
    rw [renderAux_copy ph repl pre _ hpre, renderAux_token ph repl nm post h0 h1 h2,
      List.append_assoc]
  · exact fun h => render_nomatch ph repl s h

/-- Witness for C4: the replacement value `{b}` is spliced in verbatim and
never rescanned, even though an explicit mapping for `b` exists. -/
theorem claim_C4_witness :
    replacePlaceholders (parsePlaceholders [str "a={b}", str "b=X"]) []
      (str "/p/" ++ '{' :: (str "a" ++ '}' :: str "/q")) =
      str "/p/" ++
        resolveToken (parsePlaceholders [str "a={b}", str "b=X"]) [] (str "a") ++
        replacePlaceholders (parsePlaceholders [str "a={b}", str "b=X"]) [] (str "/q") :=
  (claim_C4 (parsePlaceholders [str "a={b}", str "b=X"]) [] (str "/p/") (str "a")
    (str "/q") [] (by decide) (by decide) (by decide) (by decide)).1

/-- C6: the placeholder map is built by splitting each argument at its
first `=`, silently discarding arguments without `=`, with later
arguments for the same name overwriting earlier ones; in particular
`id=42` followed by `id=43` maps `id` to `43`. -/
theorem claim_C6 (args : List Str) (a name value n : Str)
    (ha : '=' ∉ a) (hname : '=' ∉ name) :
    parsePlaceholders (args ++ [a]) = parsePlaceholders args ∧
    parsePlaceholders (args ++ [name ++ '=' :: value]) name = some value ∧
    (n ≠ name → parsePlaceholders (args ++ [name ++ '=' :: value]) n =
      parsePlaceholders args n) ∧
    parsePlaceholders [str "id=42", str "id=43"] (str "id") = some (str "43") := by
  refine ⟨?_, ?_, fun hn => ?_, by decide⟩
  · rw [parsePlaceholders_append, splitN2_no_eq a ha]
  · rw [parsePlaceholders_append, splitN2_first_eq name value hname]
    simp
  · rw [parsePlaceholders_append, splitN2_first_eq name value hname]
    simp [hn]

/-- Witness for C6: a malformed argument is discarded. -/
theorem claim_C6_witness :
    parsePlaceholders [str "id=42", str "novalue"] = parsePlaceholders [str "id=42"] :=
  (claim_C6 [str "id=42"] (str "novalue") (str "k") (str "v") (str "k")
    (by decide) (by decide)).1

/-- C9: an argument with an empty name part (such as `=value`) is accepted
into the map under the empty-string key, but the renderer's output only
depends on the map's values at non-empty names, so such an entry can
never affect any rendered path. -/
theorem claim_C9 (args : List Str) (value : Str) (ph ph' : Str → Option Str)
    (repl s : Str) (hag : ∀ nm, nm ≠ [] → ph nm = ph' nm) :
    parsePlaceholders (args ++ ['=' :: value]) [] = some value ∧
    replacePlaceholders ph repl s = replacePlaceholders ph' repl s := by
  constructor
  · rw [parsePlaceholders_append]
    have hsp : splitN2 ('=' :: value) = ([], some value) := by simp [splitN2]
    rw [hsp]
    rfl
  · exact renderAux_agree ph ph' repl hag s none

/-- Witness for C9: with the single argument `=v` in the map, rendering
agrees with rendering under the empty map. -/
theorem claim_C9_witness :
    replacePlaceholders (parsePlaceholders [('=' :: str "v")]) [] (str "/a/{x}") =
      replacePlaceholders (fun _ => none) [] (str "/a/{x}") :=
  (claim_C9 [] (str "v") (parsePlaceholders [('=' :: str "v")]) (fun _ => none) []
    (str "/a/{x}")
    (fun nm hnm => by
      show (if nm = ([] : Str) then some (str "v") else none) = none
      rw [if_neg hnm])).2

/-- C5: for every document without the WADL namespace marker (attribute
absent, or its text lacking the substring `wadl.dev.java.net`), the run
exits with status 1, writes the single line `Error! Not a WADL file.` to
the error stream, and emits zero standard-output lines. -/
theorem claim_C5 (doc : WadlDoc) (cfg : Config)
    (h : ∀ t, doc.xmlns = some t → containsStr t wadlMarker = false) :
    (runMain doc cfg).stdoutLines = [] ∧ (runMain doc cfg).exitCode = 1 ∧
    (runMain doc cfg).errLine = some (str "Error! Not a WADL file.") := by
  have hrun : runMain doc cfg = errorExit (str "Not a WADL file.") := by
    unfold runMain
    cases hx : doc.xmlns with
    | none => rfl
    | some t => simp [h t hx]
  rw [hrun]
  exact ⟨rfl, rfl, by decide⟩

set_option maxRecDepth 4000 in
/-- Witness for C5 on a document with a non-WADL namespace. -/
theorem claim_C5_witness :
    (runMain ⟨some (str "http://example.com/ns"), some (str "http://h.tld"), [str "/a"]⟩
      ⟨true, [], fun _ => none⟩).stdoutLines = [] :=
  (claim_C5 ⟨some (str "http://example.com/ns"), some (str "http://h.tld"), [str "/a"]⟩
    ⟨true, [], fun _ => none⟩
    (fun t ht => by
      simp only [Option.some.injEq] at ht
      subst ht
      decide)).1

/-- C7: with an empty effective base URL the rendered line is exactly the
templated relative path, the collapse step is skipped (even when the path
contains `//`), and in particular a document with base `http://h.tld` and
path `/a` run without `-b` outputs exactly `/a`. -/
theorem claim_C7 (cfg : Config) (p : Str) :
    renderLine cfg [] p = replacePlaceholders cfg.placeholders cfg.replace p ∧
    (containsToken p = false → renderLine cfg [] p = p) ∧
    (runMain ⟨some (str "http://wadl.dev.java.net/2009/02"), some (str "http://h.tld"),
      [str "/a"]⟩ ⟨false, [], fun _ => none⟩).stdoutLines = [str "/a"] := by
  have h1 : renderLine cfg [] p = replacePlaceholders cfg.placeholders cfg.replace p := by
    unfold renderLine
    simp
  refine ⟨h1, fun h => ?_, by decide⟩
  rw [h1, render_nomatch _ _ _ h]

/-- Witness for C7: a token-free path containing `//` passes through
unchanged when the base URL is empty. -/
theorem claim_C7_witness :
    renderLine ⟨false, str "Z", fun _ => none⟩ [] (str "/x//y") = str "/x//y" :=
  (claim_C7 ⟨false, str "Z", fun _ => none⟩ (str "/x//y")).2.1 (by decide)

/-- C10: when the declared base attribute is present but empty, running
with `showBase = true` is observationally identical to running with
`showBase = false`: both the prefixing and the collapse decision key on
the effective base URL string being non-empty, not on the flag. -/
theorem claim_C10 (doc : WadlDoc) (r : Str) (ph : Str → Option Str)
    (h : doc.base = some []) :
    runMain doc ⟨true, r, ph⟩ = runMain doc ⟨false, r, ph⟩ := by
  unfold runMain
  cases hx : doc.xmlns with
  | none => rfl
  | some t =>
    rw [h]
    rfl

/-- Witness for C10 on a concrete document with an empty base attribute. -/
theorem claim_C10_witness :
    runMain ⟨some (str "http://wadl.dev.java.net/2009/02"), some [], [str "/a/{id}"]⟩
      ⟨true, str "X", fun _ => none⟩ =
    runMain ⟨some (str "http://wadl.dev.java.net/2009/02"), some [], [str "/a/{id}"]⟩
      ⟨false, str "X", fun _ => none⟩ :=
  claim_C10 ⟨some (str "http://wadl.dev.java.net/2009/02"), some [], [str "/a/{id}"]⟩
    (str "X") (fun _ => none) rfl

set_option maxRecDepth 8000 in
/-- Counterexample to C1 as stated: the pipeline does not collapse before
substitution.  With base `http://h.tld`, path `/{a}/b//c` and the
explicit mapping `a=//`, the program's order (substitute, then collapse)
and the claimed order (collapse, then substitute) produce different
lines; moreover the string reaching the renderer is the raw
concatenation, still carrying the double slash of the claimed example. -/
theorem claim_C1_counterexample :
    renderLine ⟨true, [], parsePlaceholders [str "a=//"]⟩ (str "http://h.tld")
        (str "/{a}/b//c") ≠
      renderLineSpecOrder ⟨true, [], parsePlaceholders [str "a=//"]⟩ (str "http://h.tld")
        (str "/{a}/b//c") := by
  decide

set_option maxRecDepth 8000 in
/-- C1 (amended): for every resource path rendered with a non-empty base
URL, the pipeline substitutes placeholders first and only then applies
the second-occurrence separator collapse, to the templated string; for
base `http://h.tld/` and path `/res/{id}` with an empty placeholder
configuration the emitted line is still exactly `http://h.tld/res/{id}`,
the collapse happening after templating. -/
theorem claim_C1 (cfg : Config) (base p : Str) (hb : base ≠ []) :
    renderLine cfg base p =
      collapseSecondSpec (replacePlaceholders cfg.placeholders cfg.replace (base ++ p)) ∧
    renderLine ⟨true, [], fun _ => none⟩ (str "http://h.tld/") (str "/res/{id}") =
      str "http://h.tld/res/{id}" := by
  refine ⟨?_, by decide⟩
  unfold renderLine
  simp only []
  rw [if_pos hb]
  exact replaceNth_two_collapse _

/-- Witness for C1 (amended) at the example base and path. -/
theorem claim_C1_witness :
    renderLine ⟨true, [], fun _ => none⟩ (str "http://h.tld/") (str "/res/{id}") =
      collapseSecondSpec (replacePlaceholders (fun _ => none) []
        (str "http://h.tld/" ++ str "/res/{id}")) :=
  (claim_C1 ⟨true, [], fun _ => none⟩ (str "http://h.tld/") (str "/res/{id}")
    (by decide)).1
